import Mathlib

/-!
Verification development for the code-based signature scheme prototype.

The C sources are shallowly embedded over `ZMod 2`:
* dense `nmod_mat_t` matrices (FLINT, `MOD = 2`) become `Matrix (Fin r) (Fin c) (ZMod 2)`;
* the plain `int` arrays used by `rref`, and matrices whose dimensions are run-time
  data (`make_systematic`), become total functions `ℕ → ℕ → ZMod 2` with the
  dimensions passed separately, mirroring C row/column bounds in explicit guards;
* imperative loops become folds or structural recursions with explicit state.
-/

/-- Dense binary matrix with run-time dimensions, as used by `rref` (plain C
`int` arrays) and `make_systematic` in src/src/matrix.c.  Out-of-range entries
are junk that the algorithms never read. -/
abbrev NMat : Type := ℕ → ℕ → ZMod 2

/-- Shallow embedding of `multiply_matrices_gf2` (src/src/matrix.c, lines 81-93).
For each output entry `(i, j)` the C code first stores 0 and then accumulates
`temp ^= A[i][k] & B[k][j]` for `k` over the rows of `B`; over `ZMod 2` the XOR
is `+` and the AND is `*`.  The in-out buffer `C` is kept as an argument to match
the C signature; every entry is overwritten, so its initial contents are unused. -/
def multiply_matrices_gf2 {r p c : ℕ} (C : Matrix (Fin r) (Fin c) (ZMod 2))
    (A : Matrix (Fin r) (Fin p) (ZMod 2)) (B : Matrix (Fin p) (Fin c) (ZMod 2)) :
    Matrix (Fin r) (Fin c) (ZMod 2) :=
  fun i j => (List.finRange p).foldl (fun temp k => temp + A i k * B k j) 0

/-- Shallow embedding of `transpose_matrix` (src/src/matrix.c, lines 57-63):
`transpose[j][i] = matrix[i][j]`. -/
def transpose_matrix {r c : ℕ} (matrix : Matrix (Fin r) (Fin c) (ZMod 2)) :
    Matrix (Fin c) (Fin r) (ZMod 2) :=
  fun j i => matrix i j

lemma foldl_add_eq_sum {α : Type} (f : α → ZMod 2) :
    ∀ (L : List α) (a : ZMod 2),
      L.foldl (fun acc k => acc + f k) a = a + (L.map f).sum := by
  intro L
  induction L with
  | nil => intro a; simp
  | cons x L ih => intro a; simp [List.foldl_cons, ih, add_assoc]

lemma multiply_matrices_gf2_eq_mul {r p c : ℕ} (C : Matrix (Fin r) (Fin c) (ZMod 2))
    (A : Matrix (Fin r) (Fin p) (ZMod 2)) (B : Matrix (Fin p) (Fin c) (ZMod 2)) :
    multiply_matrices_gf2 C A B = A * B := by
  ext i j
  rw [Matrix.mul_apply, Fin.sum_univ_def]
  show (List.finRange p).foldl (fun temp k => temp + A i k * B k j) 0 = _
  rw [foldl_add_eq_sum (fun k => A i k * B k j)]
  rw [zero_add]

lemma transpose_matrix_eq {r c : ℕ} (M : Matrix (Fin r) (Fin c) (ZMod 2)) :
    transpose_matrix M = M.transpose := rfl

/-- Claim C9: for compatible GF(2) matrices, the implemented multiplication
satisfies `(A·B)ᵀ = Bᵀ·Aᵀ`, `A·0 = 0` and `A·I = A`. -/
theorem gf2_mul_algebraic_identities {r p c : ℕ}
    (A : Matrix (Fin r) (Fin p) (ZMod 2)) (B : Matrix (Fin p) (Fin c) (ZMod 2)) :
    transpose_matrix (multiply_matrices_gf2 0 A B) =
      multiply_matrices_gf2 0 (transpose_matrix B) (transpose_matrix A)
    ∧ multiply_matrices_gf2 0 A (0 : Matrix (Fin p) (Fin c) (ZMod 2)) = 0
    ∧ multiply_matrices_gf2 0 A (1 : Matrix (Fin p) (Fin p) (ZMod 2)) = A := by
  refine ⟨?_, ?_, ?_⟩
  · rw [transpose_matrix_eq, multiply_matrices_gf2_eq_mul, multiply_matrices_gf2_eq_mul,
      transpose_matrix_eq, transpose_matrix_eq, Matrix.transpose_mul]
  · rw [multiply_matrices_gf2_eq_mul, Matrix.mul_zero]
  · rw [multiply_matrices_gf2_eq_mul, Matrix.mul_one]

/-- Claim C10: the result of `multiply_matrices_gf2` does not depend on the
initial contents of the output buffer `C`, and entry `(i, j)` equals the XOR
over `k` of `A[i][k] AND B[k][j]` (in `ZMod 2`, the sum of products). -/
theorem multiply_matrices_gf2_init_independent {r p c : ℕ}
    (D1 D2 : Matrix (Fin r) (Fin c) (ZMod 2))
    (A : Matrix (Fin r) (Fin p) (ZMod 2)) (B : Matrix (Fin p) (Fin c) (ZMod 2)) :
    multiply_matrices_gf2 D1 A B = multiply_matrices_gf2 D2 A B
    ∧ ∀ i j, multiply_matrices_gf2 D1 A B i j = ∑ k : Fin p, A i k * B k j := by
  constructor
  · rfl
  · intro i j
    rw [multiply_matrices_gf2_eq_mul, Matrix.mul_apply]

/-- Embedding of FLINT's `nmod_mat_mul` with `MOD = 2` (library call used by
src/src/verifier.c): matrix multiplication over `ZMod 2`. -/
def nmod_mat_mul {r p c : ℕ} (A : Matrix (Fin r) (Fin p) (ZMod 2))
    (B : Matrix (Fin p) (Fin c) (ZMod 2)) : Matrix (Fin r) (Fin c) (ZMod 2) :=
  A * B

/-- Embedding of FLINT's `nmod_mat_transpose` (library call used by
src/src/verifier.c). -/
def nmod_mat_transpose {r c : ℕ} (M : Matrix (Fin r) (Fin c) (ZMod 2)) :
    Matrix (Fin c) (Fin r) (ZMod 2) :=
  M.transpose

/-- Embedding of FLINT's `nmod_mat_equal`: elementwise equality test. -/
def nmod_mat_equal {r c : ℕ} (A B : Matrix (Fin r) (Fin c) (ZMod 2)) : Bool :=
  decide (∀ i j, A i j = B i j)

/-- Shallow embedding of `verify_signature` (src/src/verifier.c, lines 31-67):
compute `left = F · hashᵀ` and `right = H_A · σᵀ` and report their elementwise
equality.  File output is ignored; the returned Bool is the `Verified:` verdict. -/
def verify_signature {mlen siglen rr : ℕ}
    (bin_hash : Matrix (Fin 1) (Fin mlen) (ZMod 2))
    (signature : Matrix (Fin 1) (Fin siglen) (ZMod 2))
    (F : Matrix (Fin rr) (Fin mlen) (ZMod 2))
    (H_A : Matrix (Fin rr) (Fin siglen) (ZMod 2)) : Bool :=
  let hash_T := nmod_mat_transpose bin_hash
  let left := nmod_mat_mul F hash_T
  let sig_T := nmod_mat_transpose signature
  let right := nmod_mat_mul H_A sig_T
  nmod_mat_equal left right

/-- Claim C2: `verify_signature` accepts iff `F · hashᵀ = H_A · σᵀ` elementwise,
and the verdict depends on the signature only through its syndrome, hence not on
its Hamming weight. -/
theorem verify_signature_spec {mlen siglen rr : ℕ}
    (bin_hash : Matrix (Fin 1) (Fin mlen) (ZMod 2))
    (signature : Matrix (Fin 1) (Fin siglen) (ZMod 2))
    (F : Matrix (Fin rr) (Fin mlen) (ZMod 2))
    (H_A : Matrix (Fin rr) (Fin siglen) (ZMod 2)) :
    (verify_signature bin_hash signature F H_A = true ↔
      nmod_mat_mul F (nmod_mat_transpose bin_hash) =
        nmod_mat_mul H_A (nmod_mat_transpose signature))
    ∧ ∀ sig2 : Matrix (Fin 1) (Fin siglen) (ZMod 2),
        nmod_mat_mul H_A (nmod_mat_transpose sig2) =
          nmod_mat_mul H_A (nmod_mat_transpose signature) →
        verify_signature bin_hash sig2 F H_A =
          verify_signature bin_hash signature F H_A := by
  constructor
  · simp only [verify_signature, nmod_mat_equal, decide_eq_true_eq]
    exact Matrix.ext_iff
  · intro sig2 h
    simp only [verify_signature]
    rw [h]

/-- Left `n1` columns of a matrix with `n1 + n2` columns (the block `H_A^(1)`). -/
def leftCols {m n1 n2 : ℕ} (H : Matrix (Fin m) (Fin (n1 + n2)) (ZMod 2)) :
    Matrix (Fin m) (Fin n1) (ZMod 2) :=
  fun i j => H i (Fin.castAdd n2 j)

/-- Right `n2` columns of a matrix with `n1 + n2` columns (the block `H_A^(2)`). -/
def rightCols {m n1 n2 : ℕ} (H : Matrix (Fin m) (Fin (n1 + n2)) (ZMod 2)) :
    Matrix (Fin m) (Fin n2) (ZMod 2) :=
  fun i j => H i (Fin.natAdd n1 j)

/-- Top `n1` rows of a matrix with `n1 + n2` rows. -/
def topRows {n1 n2 c : ℕ} (X : Matrix (Fin (n1 + n2)) (Fin c) (ZMod 2)) :
    Matrix (Fin n1) (Fin c) (ZMod 2) :=
  fun i j => X (Fin.castAdd n2 i) j

/-- Bottom `n2` rows of a matrix with `n1 + n2` rows. -/
def botRows {n1 n2 c : ℕ} (X : Matrix (Fin (n1 + n2)) (Fin c) (ZMod 2)) :
    Matrix (Fin n2) (Fin c) (ZMod 2) :=
  fun i j => X (Fin.natAdd n1 i) j

lemma mul_split {m n1 n2 c : ℕ} (H : Matrix (Fin m) (Fin (n1 + n2)) (ZMod 2))
    (X : Matrix (Fin (n1 + n2)) (Fin c) (ZMod 2)) :
    H * X = leftCols H * topRows X + rightCols H * botRows X := by
  ext i j
  simp only [Matrix.mul_apply, Matrix.add_apply, leftCols, rightCols, topRows, botRows]
  rw [Fin.sum_univ_add]

/-- Modelled from the spec: signer.c is absent from src/.  Per §4.4 step 5 the
prototype signature is the concatenation `(s·G1 ∥ s·G2)`, each half computed by
the GF(2) multiplication of src/src/matrix.c. -/
def sigma_concat {kA n1 n2 : ℕ} (s : Matrix (Fin 1) (Fin kA) (ZMod 2))
    (G1 : Matrix (Fin kA) (Fin n1) (ZMod 2)) (G2 : Matrix (Fin kA) (Fin n2) (ZMod 2)) :
    Matrix (Fin 1) (Fin (n1 + n2)) (ZMod 2) :=
  fun i j =>
    Fin.addCases (fun j1 => multiply_matrices_gf2 0 s G1 i j1)
      (fun j2 => multiply_matrices_gf2 0 s G2 i j2) j

/-- Modelled from the spec: signer.c is absent from src/.  Per §4.4 step 3 the
public key is `F = H_A^(1)·G1ᵀ ⊕ H_A^(2)·G2ᵀ` (matrix XOR is addition over
`ZMod 2`), with the blocks multiplied by the GF(2) multiplication of
src/src/matrix.c. -/
def public_key_F {m kA n1 n2 : ℕ} (H_A : Matrix (Fin m) (Fin (n1 + n2)) (ZMod 2))
    (G1 : Matrix (Fin kA) (Fin n1) (ZMod 2)) (G2 : Matrix (Fin kA) (Fin n2) (ZMod 2)) :
    Matrix (Fin m) (Fin kA) (ZMod 2) :=
  multiply_matrices_gf2 0 (leftCols H_A) (transpose_matrix G1) +
    multiply_matrices_gf2 0 (rightCols H_A) (transpose_matrix G2)

/-- Modelled from the spec (§4.4 step 3): `G*ᵀ` is the `(n1+n2) × kA` matrix
whose top `n1` rows are `G1ᵀ` and whose bottom `n2` rows are `G2ᵀ`. -/
def Gstar_T {kA n1 n2 : ℕ} (G1 : Matrix (Fin kA) (Fin n1) (ZMod 2))
    (G2 : Matrix (Fin kA) (Fin n2) (ZMod 2)) :
    Matrix (Fin (n1 + n2)) (Fin kA) (ZMod 2) :=
  fun i j => Fin.addCases (fun i1 => G1 j i1) (fun i2 => G2 j i2) i

lemma topRows_transpose_sigma {kA n1 n2 : ℕ} (s : Matrix (Fin 1) (Fin kA) (ZMod 2))
    (G1 : Matrix (Fin kA) (Fin n1) (ZMod 2)) (G2 : Matrix (Fin kA) (Fin n2) (ZMod 2)) :
    topRows (transpose_matrix (sigma_concat s G1 G2)) =
      transpose_matrix (multiply_matrices_gf2 0 s G1) := by
  ext i j
  simp [topRows, transpose_matrix, sigma_concat]

lemma botRows_transpose_sigma {kA n1 n2 : ℕ} (s : Matrix (Fin 1) (Fin kA) (ZMod 2))
    (G1 : Matrix (Fin kA) (Fin n1) (ZMod 2)) (G2 : Matrix (Fin kA) (Fin n2) (ZMod 2)) :
    botRows (transpose_matrix (sigma_concat s G1 G2)) =
      transpose_matrix (multiply_matrices_gf2 0 s G2) := by
  ext i j
  simp [botRows, transpose_matrix, sigma_concat]

lemma topRows_Gstar_T {kA n1 n2 : ℕ} (G1 : Matrix (Fin kA) (Fin n1) (ZMod 2))
    (G2 : Matrix (Fin kA) (Fin n2) (ZMod 2)) :
    topRows (Gstar_T G1 G2) = transpose_matrix G1 := by
  ext i j
  simp [topRows, Gstar_T, transpose_matrix]

lemma botRows_Gstar_T {kA n1 n2 : ℕ} (G1 : Matrix (Fin kA) (Fin n1) (ZMod 2))
    (G2 : Matrix (Fin kA) (Fin n2) (ZMod 2)) :
    botRows (Gstar_T G1 G2) = transpose_matrix G2 := by
  ext i j
  simp [botRows, Gstar_T, transpose_matrix]

/-- Claim C1: with `σ = (s·G1 ∥ s·G2)` and `F = H_A^(1)·G1ᵀ ⊕ H_A^(2)·G2ᵀ`
(equivalently `F = H_A · G*ᵀ`), the syndrome identity `H_A·σᵀ = F·sᵀ` holds over
GF(2), so an honestly formed signature always verifies. -/
theorem honest_signature_verifies {m kA n1 n2 : ℕ}
    (s : Matrix (Fin 1) (Fin kA) (ZMod 2))
    (G1 : Matrix (Fin kA) (Fin n1) (ZMod 2)) (G2 : Matrix (Fin kA) (Fin n2) (ZMod 2))
    (H_A : Matrix (Fin m) (Fin (n1 + n2)) (ZMod 2)) :
    multiply_matrices_gf2 0 H_A (transpose_matrix (sigma_concat s G1 G2)) =
      multiply_matrices_gf2 0 (public_key_F H_A G1 G2) (transpose_matrix s)
    ∧ public_key_F H_A G1 G2 = multiply_matrices_gf2 0 H_A (Gstar_T G1 G2)
    ∧ verify_signature s (sigma_concat s G1 G2) (public_key_F H_A G1 G2) H_A = true := by
  have hmain : H_A * transpose_matrix (sigma_concat s G1 G2) =
      public_key_F H_A G1 G2 * transpose_matrix s := by
    rw [mul_split H_A (transpose_matrix (sigma_concat s G1 G2)),
      topRows_transpose_sigma, botRows_transpose_sigma]
    simp only [public_key_F, multiply_matrices_gf2_eq_mul, transpose_matrix_eq,
      Matrix.transpose_mul, Matrix.add_mul, Matrix.mul_assoc]
  refine ⟨?_, ?_, ?_⟩
  · rw [multiply_matrices_gf2_eq_mul, multiply_matrices_gf2_eq_mul]
    exact hmain
  · rw [multiply_matrices_gf2_eq_mul, mul_split H_A (Gstar_T G1 G2),
      topRows_Gstar_T, botRows_Gstar_T]
    simp only [public_key_F, multiply_matrices_gf2_eq_mul]
  · simp only [verify_signature, nmod_mat_equal, nmod_mat_mul, nmod_mat_transpose,
      decide_eq_true_eq]
    intro i j
    have h2 := hmain
    rw [transpose_matrix_eq, transpose_matrix_eq] at h2
    exact (congrFun (congrFun h2.symm i) j)

/-- Shallow embedding of `swap_columns` (src/src/matrix.c, lines 111-117): swap
entries of columns `first` and `second` in rows `0 .. n-k-1` only. -/
def swap_columns (n k first second : ℕ) (H : NMat) : NMat :=
  fun i j =>
    if i < n - k then
      if j = first then H i second
      else if j = second then H i first
      else H i j
    else H i j

/-- The column scan of `make_systematic` (src/src/matrix.c, lines 140-147):
walk rows `0 .. r-1` of column `i`, counting ones in `sum` and recording the
row of the most recent one in `position` (both start at 0). -/
def scanCol (r : ℕ) (H : NMat) (i : ℕ) : ℕ × ℕ :=
  (List.range r).foldl (fun sp j => if H j i = 1 then (sp.1 + 1, j) else sp) (0, 0)

/-- Loop body of `make_systematic` over the remaining column indices.  The C
`count` variable is the length of `placed`, the list of unit positions counted
so far (kept as a ghost trace of the counted swaps); the loop breaks as soon as
the count reaches `r`. -/
def make_systematic_go (n k r : ℕ) (H : NMat) (placed : List ℕ) :
    List ℕ → NMat × List ℕ
  | [] => (H, placed)
  | i :: rest =>
    let sp := scanCol r H i
    let H' := if sp.1 = 1 then swap_columns n k i (k + sp.2) H else H
    let placed' := if sp.1 = 1 then placed ++ [sp.2] else placed
    if placed'.length = r then (H', placed')
    else make_systematic_go n k r H' placed' rest

/-- Shallow embedding of `make_systematic` (src/src/matrix.c, lines 135-157):
greedy column permutation with `r = n - k`, scanning columns left to right.
Returns the final matrix together with the ghost list of counted positions
(whose length is the C `count`). -/
def make_systematic (n k : ℕ) (H : NMat) : NMat × List ℕ :=
  make_systematic_go n k (n - k) H [] (List.range n)

lemma zmod2_ne_one_eq_zero : ∀ a : ZMod 2, a ≠ 1 → a = 0 := by decide

lemma scan_foldl_spec (H : NMat) (i : ℕ) :
    ∀ (L : List ℕ) (s p : ℕ),
      ((L.foldl (fun sp j => if H j i = 1 then (sp.1 + 1, j) else sp) (s, p)).1 =
          s + L.countP (fun j => decide (H j i = 1)))
        ∧ (L.countP (fun j => decide (H j i = 1)) = 0 →
            (L.foldl (fun sp j => if H j i = 1 then (sp.1 + 1, j) else sp) (s, p)).2 = p)
        ∧ ∀ x, L.filter (fun j => decide (H j i = 1)) = [x] →
            (L.foldl (fun sp j => if H j i = 1 then (sp.1 + 1, j) else sp) (s, p)).2 = x := by
  intro L
  induction L with
  | nil =>
    intro s p
    refine ⟨by simp, fun _ => rfl, fun x hx => by simp at hx⟩
  | cons a L ih =>
    intro s p
    by_cases ha : H a i = 1
    · have hstep :
          (a :: L).foldl (fun sp j => if H j i = 1 then (sp.1 + 1, j) else sp) (s, p) =
            L.foldl (fun sp j => if H j i = 1 then (sp.1 + 1, j) else sp) (s + 1, a) := by
        simp [ha]
      have hcnt : (a :: L).countP (fun j => decide (H j i = 1)) =
          L.countP (fun j => decide (H j i = 1)) + 1 :=
        List.countP_cons_of_pos _ _ (by simp [ha])
      have hfil : (a :: L).filter (fun j => decide (H j i = 1)) =
          a :: L.filter (fun j => decide (H j i = 1)) :=
        List.filter_cons_of_pos (by simp [ha])
      refine ⟨?_, ?_, ?_⟩
      · rw [hstep, (ih (s + 1) a).1, hcnt]
        omega
      · intro hzero
        rw [hcnt] at hzero
        omega
      · intro x hx
        rw [hfil] at hx
        have hxa : a = x ∧ L.filter (fun j => decide (H j i = 1)) = [] := by
          constructor
          · exact (List.cons.injEq a _ x []).mp hx |>.1
          · exact (List.cons.injEq a _ x []).mp hx |>.2
        have hz : L.countP (fun j => decide (H j i = 1)) = 0 := by
          rw [List.countP_eq_length_filter, hxa.2]
          rfl
        rw [hstep, (ih (s + 1) a).2.1 hz]
        exact hxa.1
    · have hstep :
          (a :: L).foldl (fun sp j => if H j i = 1 then (sp.1 + 1, j) else sp) (s, p) =
            L.foldl (fun sp j => if H j i = 1 then (sp.1 + 1, j) else sp) (s, p) := by
        simp [ha]
      have hcnt : (a :: L).countP (fun j => decide (H j i = 1)) =
          L.countP (fun j => decide (H j i = 1)) :=
        List.countP_cons_of_neg _ _ (by simp [ha])
      have hfil : (a :: L).filter (fun j => decide (H j i = 1)) =
          L.filter (fun j => decide (H j i = 1)) :=
        List.filter_cons_of_neg (by simp [ha])
      refine ⟨?_, ?_, ?_⟩
      · rw [hstep, (ih s p).1, hcnt]
      · intro hzero
        rw [hcnt] at hzero
        rw [hstep]
        exact (ih s p).2.1 hzero
      · intro x hx
        rw [hfil] at hx
        rw [hstep]
        exact (ih s p).2.2 x hx

lemma scanCol_unit {r : ℕ} {H : NMat} {i p : ℕ} (h : scanCol r H i = (1, p)) :
    p < r ∧ H p i = 1 ∧ ∀ s, s < r → s ≠ p → H s i = 0 := by
  have hspec := scan_foldl_spec H i (List.range r) 0 0
  have hfst : (scanCol r H i).1 = 0 + (List.range r).countP (fun j => decide (H j i = 1)) :=
    hspec.1
  rw [h] at hfst
  have hcnt : (List.range r).countP (fun j => decide (H j i = 1)) = 1 := by omega
  have hlen : ((List.range r).filter (fun j => decide (H j i = 1))).length = 1 := by
    rw [← List.countP_eq_length_filter]
    exact hcnt
  obtain ⟨x, hx⟩ := List.length_eq_one.mp hlen
  have hsnd : (scanCol r H i).2 = x := hspec.2.2 x hx
  rw [h] at hsnd
  have hpx : p = x := hsnd
  have hxmem : x ∈ (List.range r).filter (fun j => decide (H j i = 1)) := by
    rw [hx]
    exact List.mem_singleton_self x
  have hxr : x < r ∧ H x i = 1 := by
    have hm := List.mem_filter.mp hxmem
    exact ⟨List.mem_range.mp hm.1, by simpa using hm.2⟩
  subst hpx
  refine ⟨hxr.1, hxr.2, ?_⟩
  intro s hs hsp
  by_cases hone : H s i = 1
  · exfalso
    have hsmem : s ∈ (List.range r).filter (fun j => decide (H j i = 1)) :=
      List.mem_filter.mpr ⟨List.mem_range.mpr hs, by simp [hone]⟩
    rw [hx] at hsmem
    exact hsp (List.mem_singleton.mp hsmem)
  · exact zmod2_ne_one_eq_zero _ hone

/-- Invariant of the `make_systematic` loop: every counted position `j` has its
unit column `e_j` sitting at column `k + j`. -/
def SysInv (r k : ℕ) (H : NMat) (placed : List ℕ) : Prop :=
  ∀ j ∈ placed, j < r ∧ ∀ s, s < r → H s (k + j) = if s = j then 1 else 0

lemma sysInv_step {n k r : ℕ} (hr : n - k = r) {H : NMat} {placed : List ℕ} {i p : ℕ}
    (hscan : scanCol r H i = (1, p)) (hinv : SysInv r k H placed) :
    SysInv r k (swap_columns n k i (k + p) H) (placed ++ [p]) := by
  obtain ⟨hpr, hp1, hpuniq⟩ := scanCol_unit hscan
  have hcolI : ∀ s, s < r → H s i = if s = p then 1 else 0 := by
    intro s hs
    by_cases hsp : s = p
    · subst hsp
      simp [hp1]
    · simp [hsp, hpuniq s hs hsp]
  intro j hj
  rcases List.mem_append.mp hj with hjmem | hjp
  · obtain ⟨hjr, hcols⟩ := hinv j hjmem
    refine ⟨hjr, ?_⟩
    intro s hs
    have hsnk : s < n - k := by omega
    simp only [swap_columns, if_pos hsnk]
    by_cases hij : k + j = i
    · have hj1 : H j i = 1 := by
        have hd := hcols j hjr
        simp at hd
        rw [← hij]
        exact hd
      have hpj : p = j := by
        by_contra hne
        have h0 := hpuniq j hjr (fun hh => hne hh.symm)
        rw [hj1] at h0
        exact one_ne_zero h0
      rw [if_pos hij, hpj]
      exact hcols s hs
    · by_cases hjp2 : j = p
      · subst hjp2
        rw [if_neg hij, if_pos rfl]
        exact hcolI s hs
      · rw [if_neg hij, if_neg (fun hh => hjp2 (by omega))]
        exact hcols s hs
  · have hjp' : j = p := by simpa using hjp
    subst hjp'
    refine ⟨hpr, ?_⟩
    intro s hs
    have hsnk : s < n - k := by omega
    simp only [swap_columns, if_pos hsnk]
    by_cases hip : k + j = i
    · rw [if_pos hip, hip]
      exact hcolI s hs
    · rw [if_neg hip]
      simpa using hcolI s hs

lemma make_systematic_go_inv {n k r : ℕ} (hr : n - k = r) :
    ∀ (L : List ℕ) (H : NMat) (placed : List ℕ),
      SysInv r k H placed →
      SysInv r k (make_systematic_go n k r H placed L).1
        (make_systematic_go n k r H placed L).2 := by
  intro L
  induction L with
  | nil =>
    intro H placed hinv
    simpa [make_systematic_go] using hinv
  | cons i rest ih =>
    intro H placed hinv
    rcases hsp : scanCol r H i with ⟨cnt, pos⟩
    simp only [make_systematic_go, hsp]
    split_ifs with h1 h2 h3
    · exact sysInv_step hr (by rw [show cnt = 1 from h1] at hsp; exact hsp) hinv
    · exact ih _ _ (sysInv_step hr (by rw [show cnt = 1 from h1] at hsp; exact hsp) hinv)
    · exact hinv
    · exact ih _ _ hinv

/-- Claim C3 (amended): when `make_systematic` terminates with its full count of
`r = n - k` counted unit columns AND the counted positions are pairwise
distinct, the last `n - k` columns of the result form the identity.  (Without
distinctness the original claim fails; see the counterexample.) -/
theorem make_systematic_distinct_full_identity (n k : ℕ) (H : NMat)
    (hnodup : (make_systematic n k H).2.Nodup)
    (hlen : (make_systematic n k H).2.length = n - k) :
    ∀ s j, s < n - k → j < n - k →
      (make_systematic n k H).1 s (k + j) = if s = j then 1 else 0 := by
  have hinv : SysInv (n - k) k (make_systematic n k H).1 (make_systematic n k H).2 :=
    make_systematic_go_inv rfl (List.range n) H []
      (fun j hj => absurd hj (List.not_mem_nil j))
  intro s j hs hj
  have hmem : j ∈ (make_systematic n k H).2 := by
    have hsub : (make_systematic n k H).2.toFinset ⊆ Finset.range (n - k) := by
      intro x hx
      rw [List.mem_toFinset] at hx
      exact Finset.mem_range.mpr (hinv x hx).1
    have hcard : (Finset.range (n - k)).card ≤ (make_systematic n k H).2.toFinset.card := by
      rw [List.toFinset_card_of_nodup hnodup, hlen, Finset.card_range]
    have heq : (make_systematic n k H).2.toFinset = Finset.range (n - k) :=
      Finset.eq_of_subset_of_card_le hsub hcard
    have hjin : j ∈ (make_systematic n k H).2.toFinset := by
      rw [heq]
      exact Finset.mem_range.mpr hj
    exact List.mem_toFinset.mp hjin
  exact (hinv j hmem).2 s hs

/-- The 2×3 matrix `[[1,1,0],[0,0,0]]`: both of its first two columns are the
unit vector `e_0`, so the greedy loop counts position 0 twice. -/
def H_badC3 : NMat := fun s j => if s = 0 ∧ j < 2 then 1 else 0

/-- Counterexample to claim C3 as stated: on `H_badC3` with `(n, k) = (3, 1)`
the loop terminates having placed its full count of `r = 2` unit columns, yet
the identity-block entry at row 1, column `k + 1 = 2` is 0, not 1. -/
theorem make_systematic_full_count_counterexample :
    (make_systematic 3 1 H_badC3).2.length = 3 - 1
    ∧ (make_systematic 3 1 H_badC3).1 1 (1 + 1) = 0 := by
  decide

/-- The 1×2 matrix `[[0,1]]`. -/
def H_goodC3 : NMat := fun s j => if s = 0 ∧ j = 1 then 1 else 0

/-- Witness for the amended claim C3 at `H_goodC3`, `(n, k) = (2, 1)`. -/
theorem make_systematic_distinct_full_identity_witness :
    (make_systematic 2 1 H_goodC3).2.Nodup
    ∧ (make_systematic 2 1 H_goodC3).2.length = 2 - 1
    ∧ (make_systematic 2 1 H_goodC3).1 0 (1 + 0) = 1 := by
  refine ⟨by decide, by decide, ?_⟩
  have h := make_systematic_distinct_full_identity 2 1 H_goodC3 (by decide) (by decide)
    0 0 (by decide) (by decide)
  simpa using h

/-- Row swap inside `rref` (src/src/matrix.c, lines 178-183): exchange rows `a`
and `b` over columns `0 .. c-1`. -/
def rowSwap (c a b : ℕ) (H : NMat) : NMat :=
  fun i j =>
    if j < c then
      if i = a then H b j
      else if i = b then H a j
      else H i j
    else H i j

/-- The downward pivot search of `rref` (src/src/matrix.c, lines 176-186): the
first row strictly below pivot row `t` (rows `t+1 .. r-1`) with a nonzero entry
in column `col`. -/
def findSwapRow (r t col : ℕ) (H : NMat) : Option ℕ :=
  (List.range' (t + 1) (r - (t + 1))).find? (fun s => decide (H s col ≠ 0))

/-- The swap phase of one `rref` column step: if the pivot entry is zero, swap
in the first nonzero row below (if any). -/
def pivotSwap (r c t col : ℕ) (H : NMat) : NMat :=
  if H t col = 0 then
    match findSwapRow r t col H with
    | some s => rowSwap c t s H
    | none => H
  else H

/-- The forward plus back substitution of one `rref` column step
(src/src/matrix.c, lines 195-211): XOR the pivot row `t` into every other row
(rows `0 .. r-1`, columns `0 .. c-1`) whose entry in column `col` is 1; over
`ZMod 2` that adds `H[s][col] * H[t][j]`. -/
def eliminate (r c t col : ℕ) (H : NMat) : NMat :=
  fun s j =>
    if s = t ∨ r ≤ s ∨ c ≤ j then H s j
    else H s j + H s col * H t j

/-- One column step of `rref` on column `c - r + t` with pivot row `t`;
`none` signals the "parity check matrix is singular" abort. -/
def rrefStep (r c t : ℕ) (H : NMat) : Option NMat :=
  if pivotSwap r c t (c - r + t) H t (c - r + t) = 0 then none
  else some (eliminate r c t (c - r + t) (pivotSwap r c t (c - r + t) H))

/-- The column loop of `rref`; `fuel` counts the remaining steps, `t` the
current pivot row.  On a singular pivot the reduction aborts, returning the
current matrix and the singular flag. -/
def rrefAux (r c : ℕ) : ℕ → ℕ → NMat → NMat × Bool
  | 0, _, H => (H, false)
  | fuel + 1, t, H =>
    match rrefStep r c t H with
    | none => (H, true)
    | some H2 => rrefAux r c fuel (t + 1) H2

/-- Shallow embedding of `rref` (src/src/matrix.c, lines 170-215): process the
rightmost `num_rows` columns in order (1-based `current_col` from
`num_cols - num_rows + 1` to `num_cols`), with pivot rows `0 .. num_rows - 1`.
The Bool records whether the singular abort was taken. -/
def rref (num_rows num_cols : ℕ) (H : NMat) : NMat × Bool :=
  rrefAux num_rows num_cols num_rows 0 H

lemma zmod2_ne_zero_eq_one : ∀ a : ZMod 2, a ≠ 0 → a = 1 := by decide

lemma zmod2_add_self : ∀ a : ZMod 2, a + a = 0 := by decide

lemma findSwapRow_mem {r t col : ℕ} {H : NMat} {s : ℕ}
    (h : findSwapRow r t col H = some s) : t + 1 ≤ s ∧ s < r ∧ H s col ≠ 0 := by
  have hmem := List.mem_of_find?_eq_some h
  have hpred := List.find?_some h
  have hrange := List.mem_range'_1.mp hmem
  refine ⟨hrange.1, by omega, by simpa using hpred⟩

/-- Invariant of the `rref` loop: the first `t` processed columns already hold
the corresponding unit vectors. -/
def RrefInv (r c t : ℕ) (H : NMat) : Prop :=
  ∀ t' < t, ∀ s < r, H s (c - r + t') = if s = t' then 1 else 0

lemma pivotSwap_preserves {r c t : ℕ} (hrc : r ≤ c) (ht : t < r) {H : NMat}
    (hinv : RrefInv r c t H) :
    RrefInv r c t (pivotSwap r c t (c - r + t) H) := by
  unfold pivotSwap
  by_cases hz : H t (c - r + t) = 0
  · rw [if_pos hz]
    rcases hfind : findSwapRow r t (c - r + t) H with _ | s0
    · exact hinv
    · obtain ⟨hs1, hs2, _⟩ := findSwapRow_mem hfind
      show RrefInv r c t (rowSwap c t s0 H)
      intro t' ht' s hs
      have hcol : c - r + t' < c := by omega
      simp only [rowSwap, if_pos hcol]
      by_cases hst : s = t
      · rw [if_pos hst]
        have hv := hinv t' ht' s0 hs2
        rw [if_neg (by omega : ¬s0 = t')] at hv
        rw [hv, if_neg (by omega : ¬s = t')]
      · by_cases hss : s = s0
        · rw [if_neg hst, if_pos hss]
          have hv := hinv t' ht' t ht
          rw [if_neg (by omega : ¬t = t')] at hv
          rw [hv, if_neg (by omega : ¬s = t')]
        · rw [if_neg hst, if_neg hss]
          exact hinv t' ht' s hs
  · rw [if_neg hz]
    exact hinv

lemma eliminate_inv {r c t : ℕ} (hrc : r ≤ c) (ht : t < r) {H1 : NMat}
    (hinv : RrefInv r c t H1) (hpiv : H1 t (c - r + t) = 1) :
    RrefInv r c (t + 1) (eliminate r c t (c - r + t) H1) := by
  intro t' ht' s hs
  have hcol : c - r + t' < c := by omega
  by_cases htt : t' < t
  · simp only [eliminate]
    by_cases hguard : s = t ∨ r ≤ s ∨ c ≤ c - r + t'
    · rw [if_pos hguard]
      exact hinv t' htt s hs
    · rw [if_neg hguard]
      have h1 : H1 t (c - r + t') = 0 := by
        have hv := hinv t' htt t ht
        rw [if_neg (by omega : ¬t = t')] at hv
        exact hv
      rw [h1, mul_zero, add_zero]
      exact hinv t' htt s hs
  · have htt' : t' = t := by omega
    subst htt'
    simp only [eliminate]
    by_cases hst : s = t'
    · subst hst
      rw [if_pos (Or.inl rfl), if_pos rfl]
      exact hpiv
    · have hguard : ¬(s = t' ∨ r ≤ s ∨ c ≤ c - r + t') := by
        push_neg
        exact ⟨hst, by omega, by omega⟩
      rw [if_neg hguard, hpiv, mul_one, if_neg hst]
      exact zmod2_add_self _
  
lemma rrefStep_inv {r c t : ℕ} (hrc : r ≤ c) (ht : t < r) {H H2 : NMat}
    (hstep : rrefStep r c t H = some H2) (hinv : RrefInv r c t H) :
    RrefInv r c (t + 1) H2 := by
  unfold rrefStep at hstep
  by_cases hz : pivotSwap r c t (c - r + t) H t (c - r + t) = 0
  · rw [if_pos hz] at hstep
    cases hstep
  · rw [if_neg hz] at hstep
    have hH2 := Option.some.inj hstep
    rw [← hH2]
    exact eliminate_inv hrc ht (pivotSwap_preserves hrc ht hinv)
      (zmod2_ne_zero_eq_one _ hz)

lemma rrefAux_inv (r c : ℕ) (hrc : r ≤ c) :
    ∀ (fuel t : ℕ) (H : NMat), fuel + t = r → RrefInv r c t H →
      (rrefAux r c fuel t H).2 = false →
      RrefInv r c r (rrefAux r c fuel t H).1 := by
  intro fuel
  induction fuel with
  | zero =>
    intro t H hft hinv hflag
    have htr : t = r := by omega
    subst htr
    simpa [rrefAux] using hinv
  | succ fuel ih =>
    intro t H hft hinv hflag
    have ht : t < r := by omega
    simp only [rrefAux] at hflag ⊢
    rcases hstep : rrefStep r c t H with _ | H2
    · rw [hstep] at hflag
      simp at hflag
    · rw [hstep] at hflag
      exact ih (t + 1) H2 (by omega) (rrefStep_inv hrc ht hstep hinv) hflag

/-- Claim C5: when `rref` on an `r × c` matrix (with `r ≤ c`, so the
"rightmost `r` columns" make sense) terminates without taking the singular
abort, the rightmost `r` columns of the result form the `r × r` identity.  The
singular abort itself is the `none` branch of `rrefStep`, which stops the
reduction and raises the flag. -/
theorem rref_nonsingular_identity (num_rows num_cols : ℕ) (hrc : num_rows ≤ num_cols)
    (H : NMat) (hok : (rref num_rows num_cols H).2 = false) :
    ∀ i j, i < num_rows → j < num_rows →
      (rref num_rows num_cols H).1 i (num_cols - num_rows + j) =
        if i = j then 1 else 0 := by
  have hinv := rrefAux_inv num_rows num_cols hrc num_rows 0 H (by omega)
    (fun t' ht' => absurd ht' (Nat.not_lt_zero t')) hok
  intro i j hi hj
  exact hinv j hj i hi

/-- The 2×2 identity matrix, on which `rref` succeeds. -/
def H_goodC5 : NMat := fun i j => if i = j then 1 else 0

/-- Witness for claim C5 at the 2×2 identity. -/
theorem rref_nonsingular_identity_witness :
    (rref 2 2 H_goodC5).2 = false ∧ (rref 2 2 H_goodC5).1 0 (2 - 2 + 0) = 1 := by
  refine ⟨by decide, ?_⟩
  have h := rref_nonsingular_identity 2 2 (by decide) H_goodC5 (by decide) 0 0
    (by decide) (by decide)
  simpa using h

/-- The `Params` record of src/include/params.h: three `uint32_t` fields
`(n, k, d)`.  Values are modelled as `ℕ`; all theorems about the BCH branch
carry no-overflow hypotheses under which `ℕ` and `uint32_t` arithmetic agree. -/
structure Params where
  n : ℕ
  k : ℕ
  d : ℕ
deriving DecidableEq

/-- The acceptance test of the parameter-entry loops (src/src/params.c): a
triple is accepted when NOT `(n <= k || n <= d)`. -/
def param_ok (p : Params) : Bool :=
  decide (p.k < p.n ∧ p.d < p.n)

/-- Shallow embedding of `get_param_input` (src/src/params.c, lines 130-154):
the do/while loop keeps prompting until an accepted triple arrives.  `entries`
is the sequence of triples the user types; the result is the first accepted
one (`none` models a user who never types a valid triple, so the loop never
exits). -/
def get_param_input (entries : List Params) : Option Params :=
  entries.find? param_ok

/-- Shallow embedding of `generate_random_params` (src/src/params.c, lines
91-97): the do/while loop redraws until `n > k` and `n > d` hold.  `draws` is
the stream of `(random_range 16 17, random_range 6 7, random_range 3 4)`
draws. -/
def generate_random_params (draws : List Params) : Option Params :=
  draws.find? param_ok

/-- The BCH branch of `get_user_input` (src/src/params.c, lines 197-214):
`n = 2^m - 1`, `k = m*t`, `d = 2t+1` for both inner codes, and
`h.n = g1.n + g2.n`, `h.d = g1.d + g2.d + 1`.  The C code sets
`h->k = h->n * (1 - binary_entropy((double) h->d / h->n))` with `double`
arithmetic and with `binary_entropy` living in utils.c, which is absent from
src/; that resulting `uint32_t` is taken as the input `entropyK`. -/
def bch_branch (m t entropyK : ℕ) : Params × Params × Params :=
  let n := 2 ^ m - 1
  let d := 2 * t + 1
  let k := m * t
  let g1 : Params := ⟨n, k, d⟩
  let g2 : Params := ⟨n, k, d⟩
  let h : Params := ⟨g1.n + g2.n, entropyK, g1.d + g2.d + 1⟩
  (g1, g2, h)

/-- The `k` coercion of the free-entry branch (src/src/params.c, lines
225-228): if `g1->k != g2->k`, set `g2->k = g1->k`. -/
def coerce_k (g1k : ℕ) (p : Params) : Params :=
  if g1k ≠ p.k then { p with k := g1k } else p

/-- The interaction environment of one `get_user_input` run (src/src/params.c,
lines 178-261): the parsed `params.txt` contents when the file is present, the
answers to the yes/no prompts, and the streams of typed and randomly drawn
triples. -/
structure UserEnv where
  savedParams : Option (Params × Params × Params)
  useSaved : Bool
  useBCH : Bool
  m : ℕ
  t : ℕ
  bchEntropyK : ℕ
  inputG1 : Bool
  g1Entries : List Params
  g1Draws : List Params
  inputG2 : Bool
  g2Entries : List Params
  g2Draws : List Params

/-- The C `param_choice` flag: true iff `params.txt` exists and the user agrees
to reuse it (src/src/params.c, lines 180-183). -/
def use_saved_branch (env : UserEnv) : Bool :=
  match env.savedParams, env.useSaved with
  | some _, true => true
  | _, _ => false

/-- The free-entry branch of `get_user_input` (src/src/params.c, lines
215-237): obtain `G1` by typing or random draw, obtain `G2` likewise with its
`k` coerced to `G1.k` (conditionally when typed, unconditionally when drawn),
then derive `h = (g1.n + g2.n, g1.k, g1.d + g2.d)`. -/
def free_branch (env : UserEnv) : Option (Params × Params × Params) :=
  match (if env.inputG1 then get_param_input env.g1Entries
         else generate_random_params env.g1Draws) with
  | none => none
  | some g1 =>
    match (if env.inputG2 then
             (get_param_input env.g2Entries).map (coerce_k g1.k)
           else
             (generate_random_params env.g2Draws).map
               (fun p => { p with k := g1.k })) with
    | none => none
    | some g2 => some (g1, g2, ⟨g1.n + g2.n, g1.k, g1.d + g2.d⟩)

/-- Shallow embedding of `get_user_input` (src/src/params.c, lines 178-261),
returning the `(G1, G2, H_A)` triples stored into the process-wide parameter
records (`none` models a non-terminating entry loop).  `savedParams` holds the
file's `(H_A, G1, G2)` triples in file order; the saved-file branch stores
them with no validity check. -/
def get_user_input (env : UserEnv) : Option (Params × Params × Params) :=
  if use_saved_branch env then
    env.savedParams.map (fun s => (s.2.1, s.2.2, s.1))
  else if env.useBCH then
    some (bch_branch env.m env.t env.bchEntropyK)
  else
    free_branch env

/-- Counterexample to claim C4 as stated: with user inputs `m = 3`, `t = 1` the
BCH branch stores `d_A = d_1 + d_2 + 1 = 7`, not `d_1 + d_2 = 6`. -/
theorem bch_outer_distance_counterexample :
    ¬((bch_branch 3 1 0).2.2.d = (bch_branch 3 1 0).1.d + (bch_branch 3 1 0).2.1.d) := by
  decide

/-- Claim C4 (amended): under BCH-like defaults with no `uint32_t` overflow,
the inner codes get `n_i = 2^m - 1`, `k_i = m*t`, `d_i = 2t+1`, and the outer
code gets `n_A = n_1 + n_2` and `d_A = d_1 + d_2 + 1`; `k_A` is the
floating-point binary-entropy estimate `entropyK`, not `k_1`. -/
theorem bch_branch_derivation (m t entropyK : ℕ) (hm : m < 31)
    (hk : m * t < 2 ^ 32) (hd : 4 * t + 3 < 2 ^ 32) :
    (bch_branch m t entropyK).1 = ⟨2 ^ m - 1, m * t, 2 * t + 1⟩
    ∧ (bch_branch m t entropyK).2.1 = (bch_branch m t entropyK).1
    ∧ (bch_branch m t entropyK).2.2.n =
        (bch_branch m t entropyK).1.n + (bch_branch m t entropyK).2.1.n
    ∧ (bch_branch m t entropyK).2.2.d =
        (bch_branch m t entropyK).1.d + (bch_branch m t entropyK).2.1.d + 1
    ∧ (bch_branch m t entropyK).2.2.k = entropyK := by
  exact ⟨rfl, rfl, rfl, rfl, rfl⟩

/-- Witness for the amended claim C4 at `m = 3`, `t = 1`. -/
theorem bch_branch_derivation_witness :
    (bch_branch 3 1 0).1 = ⟨7, 3, 3⟩ ∧ (bch_branch 3 1 0).2.2.d = 7 := by
  have h := bch_branch_derivation 3 1 0 (by decide) (by decide) (by decide)
  refine ⟨h.1, ?_⟩
  rw [h.2.2.2.1, h.1, h.2.1, h.1]
  decide

/-- An environment whose `params.txt` holds the invalid triple `(1, 5, 5)`
(here `n ≤ k` and `n ≤ d`) for all three codes, and whose user answers yes to
reusing the saved file. -/
def env_badC6 : UserEnv :=
  { savedParams := some (⟨1, 5, 5⟩, ⟨1, 5, 5⟩, ⟨1, 5, 5⟩)
    useSaved := true
    useBCH := false
    m := 0
    t := 0
    bchEntropyK := 0
    inputG1 := false
    g1Entries := []
    g1Draws := []
    inputG2 := false
    g2Entries := []
    g2Draws := []  }

/-- Counterexample to claim C6 as stated: loading a saved `params.txt` is a
path by which parameters become the process parameters, yet `get_user_input`
stores the triple `(1, 5, 5)` with `n ≤ k` without any rejection. -/
theorem saved_params_unchecked_counterexample :
    get_user_input env_badC6 = some (⟨1, 5, 5⟩, ⟨1, 5, 5⟩, ⟨1, 5, 5⟩)
    ∧ (⟨1, 5, 5⟩ : Params).n ≤ (⟨1, 5, 5⟩ : Params).k := by
  exact ⟨rfl, by decide⟩

/-- Claim C6 (amended): triples accepted by the interactive entry loop
`get_param_input` or by `generate_random_params` always satisfy `n > k` and
`n > d` (invalid interactive entries are re-prompted rather than accepted);
the saved-`params.txt` path and the BCH derivation store triples unchecked,
and keygen performs no such check. -/
theorem param_entry_validation (entries draws : List Params) (p q : Params)
    (h1 : get_param_input entries = some p)
    (h2 : generate_random_params draws = some q) :
    (p.k < p.n ∧ p.d < p.n) ∧ (q.k < q.n ∧ q.d < q.n) := by
  constructor
  · have hp := List.find?_some h1
    simpa [param_ok] using hp
  · have hq := List.find?_some h2
    simpa [param_ok] using hq

/-- Witness for the amended claim C6: a rejected-then-accepted entry sequence
and a draw sequence. -/
theorem param_entry_validation_witness :
    get_param_input [⟨3, 5, 5⟩, ⟨7, 3, 3⟩] = some ⟨7, 3, 3⟩
    ∧ generate_random_params [⟨16, 6, 3⟩] = some ⟨16, 6, 3⟩
    ∧ ((3 : ℕ) < 7 ∧ (3 : ℕ) < 7) ∧ ((6 : ℕ) < 16 ∧ (3 : ℕ) < 16) := by
  refine ⟨by decide, by decide, ?_⟩
  exact param_entry_validation [⟨3, 5, 5⟩, ⟨7, 3, 3⟩] [⟨16, 6, 3⟩] ⟨7, 3, 3⟩ ⟨16, 6, 3⟩
    (by decide) (by decide)

lemma coerce_k_k (a : ℕ) (p : Params) : (coerce_k a p).k = a := by
  unfold coerce_k
  by_cases h : a = p.k
  · rw [if_neg (fun hh => hh h)]
    exact h.symm
  · rw [if_pos h]

lemma free_branch_k {env : UserEnv} {g1 g2 h : Params}
    (hres : free_branch env = some (g1, g2, h)) : g1.k = g2.k := by
  unfold free_branch at hres
  rcases hg1 : (if env.inputG1 then get_param_input env.g1Entries
                else generate_random_params env.g1Draws) with _ | p1
  · rw [hg1] at hres
    cases hres
  · rw [hg1] at hres
    have hres2 :
        (match (if env.inputG2 then
                  (get_param_input env.g2Entries).map (coerce_k p1.k)
                else
                  (generate_random_params env.g2Draws).map
                    (fun p => { p with k := p1.k })) with
         | none => none
         | some g2 =>
             some (p1, g2, (⟨p1.n + g2.n, p1.k, p1.d + g2.d⟩ : Params))) =
          some (g1, g2, h) := hres
    rcases hg2 : (if env.inputG2 then
                    (get_param_input env.g2Entries).map (coerce_k p1.k)
                  else
                    (generate_random_params env.g2Draws).map
                      (fun p => { p with k := p1.k })) with _ | p2
    · rw [hg2] at hres2
      cases hres2
    · rw [hg2] at hres2
      have hinj :
          (p1, p2, (⟨p1.n + p2.n, p1.k, p1.d + p2.d⟩ : Params)) = (g1, g2, h) :=
        Option.some.inj hres2
      have hg1e : p1 = g1 := congrArg Prod.fst hinj
      have hg2e : p2 = g2 := congrArg (fun x => x.2.1) hinj
      subst hg1e
      subst hg2e
      by_cases hin : env.inputG2
      · rw [if_pos hin] at hg2
        obtain ⟨q, hq, hqe⟩ := Option.map_eq_some'.mp hg2
        rw [← hqe, coerce_k_k]
      · rw [if_neg hin] at hg2
        obtain ⟨q, hq, hqe⟩ := Option.map_eq_some'.mp hg2
        rw [← hqe]

/-- Claim C7: in the free-entry branch (no saved file reuse, no BCH), whatever
triple is stored for `G2` has its `k` equal to `G1.k`, by coercion when the
entered or drawn value differs. -/
theorem free_entry_k_coerced (env : UserEnv) (hbch : env.useBCH = false)
    (hfree : env.savedParams = none ∨ env.useSaved = false)
    (g1 g2 h : Params) (hres : get_user_input env = some (g1, g2, h)) :
    g1.k = g2.k := by
  have hsb : use_saved_branch env = false := by
    unfold use_saved_branch
    rcases hfree with h1 | h2
    · rw [h1]
    · rw [h2]
      rcases hs : env.savedParams with _ | s <;> rfl
  unfold get_user_input at hres
  rw [hsb] at hres
  have hres2 : (if env.useBCH then some (bch_branch env.m env.t env.bchEntropyK)
                else free_branch env) = some (g1, g2, h) := hres
  rw [hbch] at hres2
  have hres3 : free_branch env = some (g1, g2, h) := hres2
  exact free_branch_k hres3

/-- An environment taking the free-entry branch where the user types `G2.k`
different from `G1.k`. -/
def env_goodC7 : UserEnv :=
  { savedParams := none
    useSaved := false
    useBCH := false
    m := 0
    t := 0
    bchEntropyK := 0
    inputG1 := true
    g1Entries := [⟨7, 3, 3⟩]
    g1Draws := []
    inputG2 := true
    g2Entries := [⟨9, 4, 5⟩]
    g2Draws := []  }

/-- Witness for claim C7: on `env_goodC7` the stored `G2` has its `k` coerced
from the typed 4 to `G1.k = 3`. -/
theorem free_entry_k_coerced_witness :
    (⟨7, 3, 3⟩ : Params).k = (⟨9, 3, 5⟩ : Params).k := by
  exact free_entry_k_coerced env_goodC7 rfl (Or.inl rfl) ⟨7, 3, 3⟩ ⟨9, 3, 5⟩
    ⟨16, 3, 8⟩ (by decide)

/-- A 32-byte seed (`SEED_SIZE` in src/include/constants.h). -/
def Seed : Type := Fin 32 → Fin 256

/-- Modelled from the spec: keygen.c is absent from src/ (only its header
src/include/keygen.h is present).  Per §4.2, a CSPRNG keyed by the seed yields
a deterministic byte stream; `stream seed` is that stream, read as bits, and
bits are consumed in row-major order to fill the `k × n` matrix. -/
def seed_expand (stream : Seed → ℕ → ZMod 2) (seed : Seed) (rows cols : ℕ) : NMat :=
  fun i j => if i < rows ∧ j < cols then stream seed (i * cols + j) else 0

/-- Modelled from the spec: keygen.c is absent from src/.  Per §4.2 step 2,
`create_generator_matrix_from_seed` deterministically expands the seed into a
binary matrix of the requested shape and applies `make_systematic`
(src/src/matrix.c).  `d` only names the cached artifact.  `env` stands for the
ambient per-run process state (the unseeded system CSPRNG draws of this run);
the seeded path never consults it. -/
def create_generator_matrix_from_seed (stream : Seed → ℕ → ZMod 2) (n k d : ℕ)
    (seed : Seed) (env : ℕ → ZMod 2) : NMat × List ℕ :=
  make_systematic n k (seed_expand stream seed k n)

/-- Claim C8: for every 32-byte seed and fixed shape, two independent runs
(arbitrary, possibly different, ambient run states `env1`, `env2`) of the
seeded matrix generation yield bitwise-identical matrices: the result is a
function of the seed and the requested shape alone. -/
theorem create_generator_matrix_from_seed_deterministic
    (stream : Seed → ℕ → ZMod 2) (n k d : ℕ) (seed : Seed)
    (env1 env2 : ℕ → ZMod 2) :
    create_generator_matrix_from_seed stream n k d seed env1 =
      create_generator_matrix_from_seed stream n k d seed env2 := by
  rfl

/-- A concrete all-ones hash vector for the C2 witness. -/
def hash_w : Matrix (Fin 1) (Fin 1) (ZMod 2) := fun _ _ => 1

/-- A concrete zero public key for the C2 witness. -/
def F_w : Matrix (Fin 1) (Fin 1) (ZMod 2) := fun _ _ => 0

/-- A concrete all-ones parity-check matrix for the C2 witness. -/
def H_w : Matrix (Fin 1) (Fin 2) (ZMod 2) := fun _ _ => 1

/-- A concrete weight-2 signature for the C2 witness. -/
def sig1_w : Matrix (Fin 1) (Fin 2) (ZMod 2) := fun _ _ => 1

/-- A concrete weight-0 signature with the same syndrome as `sig1_w`. -/
def sig2_w : Matrix (Fin 1) (Fin 2) (ZMod 2) := fun _ _ => 0

/-- Witness for claim C2: two concrete signatures of different Hamming weight
but equal syndrome receive the same verdict. -/
theorem verify_signature_spec_witness :
    verify_signature hash_w sig2_w F_w H_w = verify_signature hash_w sig1_w F_w H_w := by
  refine (verify_signature_spec hash_w sig1_w F_w H_w).2 sig2_w ?_
  ext i j
  fin_cases i
  fin_cases j
  simp [nmod_mat_mul, nmod_mat_transpose, sig1_w, sig2_w, H_w, Matrix.mul_apply,
    Fin.sum_univ_succ]
  decide
